import Mathlib

/-!
Verification development for the `crypmonsys` package, an implementation of
multi-client predicate-only encryption for conjunctive equality tests.

The pairing-library collaborator (groups G1, G2, GT of prime order with a
bilinear map) is modelled by tracking discrete logarithms: a group element is
represented by its exponent with respect to a fixed generator, living in a
commutative ring `R` (the scalar field Zr).  Under this model
group multiplication is `+`, exponentiation `PowZn` is `*` by a scalar, the
multiplicative identity `Set1` is `0`, the pairing `e(g1^x, g2^y) = e(g1,g2)^(x*y)`
is `x * y`, and GT equality is equality in `R`.  The deterministic
string-hash-to-G1 of the pairing context is modelled by an arbitrary function
`String → R` carried in the system parameters.  Every random sample drawn by
the Go code is passed in as an explicit parameter.  A Go runtime panic
(out-of-range slice access, explicit `panic`) is modelled by `Option`/`Except`
failure values.
-/

/-- Decidable equality for `Except` results, so that concrete runs of the
embedded operations can be evaluated by `decide`. -/
instance {e a : Type} [DecidableEq e] [DecidableEq a] : DecidableEq (Except e a)
  | Except.ok x, Except.ok y =>
    if h : x = y then Decidable.isTrue (by rw [h])
    else Decidable.isFalse (by intro hc; cases hc; exact h rfl)
  | Except.error x, Except.error y =>
    if h : x = y then Decidable.isTrue (by rw [h])
    else Decidable.isFalse (by intro hc; cases hc; exact h rfl)
  | Except.ok _, Except.error _ => Decidable.isFalse (by intro hc; cases hc)
  | Except.error _, Except.ok _ => Decidable.isFalse (by intro hc; cases hc)

namespace Crypmonsys

variable {R : Type} [CommRing R] [DecidableEq R]

/-- Tag recording whether a group element produced by `F` lives in G1 or G2
(the result of the `switch group` statement in the Go code). -/
inductive GroupTag
  | G1
  | G2
deriving DecidableEq

/-- `SystemParameters` of the scheme: the two random generators (as exponents
relative to the fixed generators of G1 and G2) and the pairing context, of
which only the deterministic string-hash-to-G1 operation is relevant here. -/
structure SystemParameters (R : Type) where
  g1 : R
  g2 : R
  hash : String → R

/-- Fuelled version of the bit loop of the PRF `F`:
`for x, i := input, 0; x > 0; i, x = i+1, x>>1 { if x%2 == 1 { br.ThenMulZn(beta[i]) } }`.
The loop halves `x` each iteration, so fuel `x` always suffices; `none` models
the Go panic when `beta[i]` is accessed out of range. -/
def brAccGo (beta : List R) : Nat → R → Nat → Nat → Option R
  | _, acc, 0, _ => some acc
  | 0, _, _ + 1, _ => none
  | fuel + 1, acc, x + 1, i =>
    if (x + 1) % 2 = 1 then
      match beta[i]? with
      | some b => brAccGo beta fuel (acc * b) ((x + 1) / 2) (i + 1)
      | none => none
    else
      brAccGo beta fuel acc ((x + 1) / 2) (i + 1)

/-- The accumulated scalar of `F`: starting from `acc` (initially the
multiplicative identity of Zr), multiply in `beta[i]` for every set bit `i`
of `x`, scanning from the least-significant bit upward. -/
def brAcc (beta : List R) (acc : R) (x i : Nat) : Option R :=
  brAccGo beta x acc x i

/-- The PRF `SystemParameters.F`.  It computes the accumulated scalar
`br = (∏ beta[i] over set bits i of input) * aux` and returns `base` raised to
`br`, as an element of G1 when `group = 1` and of G2 when `group = 2`.
A negative `input` skips the bit loop entirely (the Go loop guard is `x > 0`),
which is modelled by `Int.toNat`.  `none` models the panics (bad group
selector, `beta` indexed out of range). -/
def SystemParameters.F (sp : SystemParameters R) (group : Nat) (base : R)
    (beta : List R) (aux : R) (input : Int) : Option (GroupTag × R) :=
  match brAcc beta 1 input.toNat 0 with
  | none => none
  | some br0 =>
    let br := br0 * aux
    match group with
    | 1 => some (GroupTag.G1, base * br)
    | 2 => some (GroupTag.G2, base * br)
    | _ => none

/-- `NewSystemParameters`: binds the two freshly sampled generators (passed in
as the random draws `g1draw`, `g2draw`) and the pairing context's hash. -/
def NewSystemParameters (g1draw g2draw : R) (hash : String → R) :
    SystemParameters R :=
  ⟨g1draw, g2draw, hash⟩

/-- Error kind for loading persisted system parameters. -/
inductive LoadError
  | notImplemented
deriving DecidableEq

/-- `NewSystemParametersFromFile` is an unimplemented stub: the Go body is
`panic("Unimplemented!")`, modelled as an explicit error value. -/
def NewSystemParametersFromFile (R : Type) (filename : String) :
    Except LoadError (SystemParameters R) :=
  Except.error LoadError.notImplemented

/-- `SetupPart`: per-agent key material held by the setup key. -/
structure SetupPart (R : Type) where
  alpha : R
  beta : List R
  gamma : R

/-- `SetupKey`: all information to generate key material. -/
structure SetupKey (R : Type) where
  keys : List (SetupPart R)
  sp : SystemParameters R

/-- An `Agent` of the system, holding its private key material. -/
structure Agent (R : Type) where
  index : Nat
  g1alpha : R
  beta : List R
  gamma : R
  sp : SystemParameters R

/-- A `Ciphertext` produced by an agent: the agent's index and two G1
elements. -/
structure Ciphertext (R : Type) where
  index : Nat
  part1 : R
  part2 : R
deriving DecidableEq

/-- `Agent.NewCiphertext`: encrypt `plaintext` bound to `identifier` using the
fresh random scalar `r`.  `part1 = g1^r` and
`part2 = F(1, g1^alpha, beta, r, plaintext) · H(identifier)^gamma`.
`none` models the panic of `F` on a plaintext with a set bit beyond
`beta`. -/
def Agent.NewCiphertext (a : Agent R) (identifier : String) (r : R)
    (plaintext : Int) : Option (Ciphertext R) :=
  let hID := a.sp.hash identifier
  match a.sp.F 1 a.g1alpha a.beta r plaintext with
  | none => none
  | some f => some ⟨a.index, a.sp.g1 * r, f.2 + hID * a.gamma⟩

/-- `AgentInfo`: the public-info bundle of one agent, held by the rule
generator.  Its `beta` is the same vector as the agent's private one. -/
structure AgentInfo (R : Type) where
  g2alpha : R
  beta : List R
  g2gamma : R

/-- `RuleGenerator`: the public-info bundles of all agents plus the system
parameters. -/
structure RuleGenerator (R : Type) where
  agents : List (AgentInfo R)
  sp : SystemParameters R

/-- `RuleToken`: an encrypted rule.  `indices` lists the included (non
wildcard) positions; `g2u` and `f2u` are parallel lists of G2 elements and
`product` is the aggregate G2 element. -/
structure RuleToken (R : Type) where
  indices : List Nat
  g2u : List R
  f2u : List R
  product : R
deriving DecidableEq

/-- Error kinds of `RuleGenerator.NewToken`: the explicit
`ErrWrongNumberOfRules` error, and `outOfRange` modelling the panics on
`rg.agents[i]` or `beta[i]` accessed out of range. -/
inductive TokenError
  | ruleCountMismatch
  | outOfRange
deriving DecidableEq

/-- The `for i, v := range rules` loop body of `NewToken`, threading the token
under construction.  `us i` is the random scalar `u` drawn at rule position
`i`.  Non-negative `v` appends `i` to the index list, `g2^u` to `g2u`,
`F(2, g2alpha, beta, u, v)` to `f2u`, and multiplies `(g2^gamma)^u` into the
aggregate product; negative `v` is a wildcard and is skipped entirely. -/
def newTokenLoop (rg : RuleGenerator R) (us : Nat → R) :
    List Int → Nat → RuleToken R → Except TokenError (RuleToken R)
  | [], _, r => Except.ok r
  | v :: rest, i, r =>
    if 0 ≤ v then
      match rg.agents[i]? with
      | none => Except.error TokenError.outOfRange
      | some ai =>
        match rg.sp.F 2 ai.g2alpha ai.beta (us i) v with
        | none => Except.error TokenError.outOfRange
        | some f =>
          newTokenLoop rg us rest (i + 1)
            ⟨r.indices ++ [i], r.g2u ++ [rg.sp.g2 * us i],
              r.f2u ++ [f.2], r.product + ai.g2gamma * us i⟩
    else
      newTokenLoop rg us rest (i + 1) r

/-- `RuleGenerator.NewToken`: generate a rule token from a slice of signed
integers, negative values being wildcards.  Rejects rule slices shorter than
the agent list with `ruleCountMismatch`; the token starts with empty lists and
the G2 identity as `product`. -/
def RuleGenerator.NewToken (rg : RuleGenerator R) (us : Nat → R)
    (rules : List Int) : Except TokenError (RuleToken R) :=
  if rules.length < rg.agents.length then
    Except.error TokenError.ruleCountMismatch
  else
    newTokenLoop rg us rules 0 ⟨[], [], [], 0⟩

/-- `NewSetupKey`. -/
def NewSetupKey (sp : SystemParameters R) : SetupKey R :=
  ⟨[], sp⟩

/-- The agent built by `GenerateKeys` for index `i`:
`(i, g1^alpha_i, beta_i, gamma_i)` with `beta_i` the vector of `b` fresh
scalars `betas i 0 .. betas i (b-1)`. -/
def kgAgent (sp : SystemParameters R) (alphas gammas : Nat → R)
    (betas : Nat → Nat → R) (b i : Nat) : Agent R :=
  ⟨i, sp.g1 * alphas i, (List.range b).map (betas i), gammas i, sp⟩

/-- The public-info bundle built by `GenerateKeys` for index `i`:
`(g2^alpha_i, beta_i, g2^gamma_i)`, sharing the same `beta_i` vector as the
agent. -/
def kgInfo (sp : SystemParameters R) (alphas gammas : Nat → R)
    (betas : Nat → Nat → R) (b i : Nat) : AgentInfo R :=
  ⟨sp.g2 * alphas i, (List.range b).map (betas i), sp.g2 * gammas i⟩

/-- `SetupKey.GenerateKeys`: for each agent `i < n` draw `alphas i`,
`gammas i` and the vector `betas i 0 .. betas i (b-1)` of fresh scalars, build
the agent `(i, g1^alpha, beta, gamma)` and the public bundle
`(g2^alpha, beta, g2^gamma)` (sharing the same `beta`). -/
def SetupKey.GenerateKeys (sk : SetupKey R) (alphas gammas : Nat → R)
    (betas : Nat → Nat → R) (n b : Nat) :
    RuleGenerator R × List (Agent R) :=
  let agents := (List.range n).map (kgAgent sk.sp alphas gammas betas b)
  let infos := (List.range n).map (kgInfo sk.sp alphas gammas betas b)
  (⟨infos, sk.sp⟩, agents)

/-- `AlarmSystem`: system parameters, a rule token, and the G1 hash of the
identifier. -/
structure AlarmSystem (R : Type) where
  sp : SystemParameters R
  rt : RuleToken R
  hID : R

/-- `NewAlarmSystem`: hashes the identifier once. -/
def NewAlarmSystem (sp : SystemParameters R) (rt : RuleToken R)
    (identifier : String) : AlarmSystem R :=
  ⟨sp, rt, sp.hash identifier⟩

/-- Error kind of `AlarmSystem.Test`: an included index that is not a valid
index into the ciphertext collection. -/
inductive TestError
  | indexOutOfRange
deriving DecidableEq

/-- The gathering loop of `Test`:
`parts1[i], parts2[i] = ct[v].part1, ct[v].part2` for each included index `v`.
`none` models the panic on an invalid index. -/
def gatherParts (ct : List (Ciphertext R)) :
    List Nat → Option (List R × List R)
  | [] => some ([], [])
  | v :: rest =>
    match ct[v]? with
    | none => none
    | some c =>
      match gatherParts ct rest with
      | none => none
      | some (p1, p2) => some (c.part1 :: p1, c.part2 :: p2)

/-- `ProdPairSlice` of the pairing library: the product of pairings
`∏ e(xs[i], ys[i])`, i.e. the sum of exponent products in the discrete-log
model (GT starts at the identity `0`). -/
def prodPairSlice (xs ys : List R) : R :=
  (xs.zip ys).foldl (fun acc p => acc + p.1 * p.2) 0

/-- `AlarmSystem.Test`: gather `(part1, part2)` of the ciphertext at each
included index, compute `p1 = ProdPairSlice(parts1, f2u) · e(hID, product)`
and `p2 = ProdPairSlice(parts2, g2u)`, and return the GT equality
`p1 == p2`. -/
def AlarmSystem.Test (a : AlarmSystem R) (ct : List (Ciphertext R)) :
    Except TestError Bool :=
  match gatherParts ct a.rt.indices with
  | none => Except.error TestError.indexOutOfRange
  | some (parts1, parts2) =>
    let p1 := prodPairSlice parts1 a.rt.f2u + a.hID * a.rt.product
    let p2 := prodPairSlice parts2 a.rt.g2u
    Except.ok (decide (p1 = p2))

/-- Modelled from the spec sentence for `Test` (claim C1): compute
`p1 = (∏ e(ct[i].part2, g2u[i])) · e(hID, product)` and
`p2 = ∏ e(ct[i].part1, f2u[i])` and return `p1 == p2`.  This is the spec's
assignment of the `e(hID, product)` factor, to be compared against the code's
`AlarmSystem.Test`. -/
def TestSpec (a : AlarmSystem R) (ct : List (Ciphertext R)) :
    Except TestError Bool :=
  if ∀ i ∈ a.rt.indices, i < ct.length then
    let p1 :=
      ((a.rt.indices.zip a.rt.g2u).map
        fun p => (ct.getD p.1 ⟨0, 0, 0⟩).part2 * p.2).sum +
        a.hID * a.rt.product
    let p2 :=
      ((a.rt.indices.zip a.rt.f2u).map
        fun p => (ct.getD p.1 ⟨0, 0, 0⟩).part1 * p.2).sum
    Except.ok (decide (p1 = p2))
  else
    Except.error TestError.indexOutOfRange

/-- The amended spec formula for `Test`: the factor `e(hID, product)` is
multiplied into the product over `(part1, f2u)` pairings, and the other side
is the product over `(part2, g2u)` pairings. -/
def TestSpecAmended (a : AlarmSystem R) (ct : List (Ciphertext R)) :
    Except TestError Bool :=
  if ∀ i ∈ a.rt.indices, i < ct.length then
    let p1 :=
      ((a.rt.indices.zip a.rt.f2u).map
        fun p => (ct.getD p.1 ⟨0, 0, 0⟩).part1 * p.2).sum +
        a.hID * a.rt.product
    let p2 :=
      ((a.rt.indices.zip a.rt.g2u).map
        fun p => (ct.getD p.1 ⟨0, 0, 0⟩).part2 * p.2).sum
    Except.ok (decide (p1 = p2))
  else
    Except.error TestError.indexOutOfRange

/-- The accumulated PRF scalar as the spec describes it: the product of
`beta[i]` over the bit positions `i` of `x` that are set (all of which are
assumed to lie below `beta.length`). -/
def specScalar (beta : List R) (x : Nat) : R :=
  Finset.prod (Finset.range beta.length)
    fun i => if x.testBit i then beta.getD i 0 else 1

/-- The included-index list a successful `NewToken` run produces from rule
position `i0` on: position `i0 + k` is listed exactly when the rule value
there is non-negative. -/
def incIdx : Nat → List Int → List Nat
  | _, [] => []
  | i0, v :: rest =>
    if 0 ≤ v then i0 :: incIdx (i0 + 1) rest else incIdx (i0 + 1) rest

/-- The `g2u` list a successful `NewToken` run produces from position `i0`
on. -/
def tokG2u (sp : SystemParameters R) (us : Nat → R) :
    Nat → List Int → List R
  | _, [] => []
  | i0, v :: rest =>
    if 0 ≤ v then (sp.g2 * us i0) :: tokG2u sp us (i0 + 1) rest
    else tokG2u sp us (i0 + 1) rest

/-- The `f2u` list a successful `NewToken` run produces from position `i0`
on: the value of `F(2, g2alpha, beta, us i0, v)` for the agent at each
included position. -/
def tokF2u (rg : RuleGenerator R) (us : Nat → R) :
    Nat → List Int → List R
  | _, [] => []
  | i0, v :: rest =>
    if 0 ≤ v then
      (match rg.agents[i0]? with
        | some ai =>
          ai.g2alpha * ((brAcc ai.beta 1 v.toNat 0).getD 0 * us i0)
        | none => 0) :: tokF2u rg us (i0 + 1) rest
    else tokF2u rg us (i0 + 1) rest

/-- The aggregate `product` a successful `NewToken` run accumulates from
position `i0` on: the sum of `(g2^gamma)^u` contributions of the included
positions. -/
def tokProd (rg : RuleGenerator R) (us : Nat → R) : Nat → List Int → R
  | _, [] => 0
  | i0, v :: rest =>
    if 0 ≤ v then
      (match rg.agents[i0]? with
        | some ai => ai.g2gamma * us i0
        | none => 0) + tokProd rg us (i0 + 1) rest
    else tokProd rg us (i0 + 1) rest

/-- The ciphertext `Agent.NewCiphertext` produces on success, with the PRF
scalar written via `brAcc`. -/
def mkCt (identifier : String) (rs : Nat → R) (a : Agent R) (v : Int) :
    Ciphertext R :=
  ⟨a.index, a.sp.g1 * rs a.index,
    a.g1alpha * ((brAcc a.beta 1 v.toNat 0).getD 0 * rs a.index) +
      a.sp.hash identifier * a.gamma⟩

/-- Each agent in the list encrypts the matching plaintext in `vs` for the
common identifier, the fresh scalar of agent `a` being `rs a.index`.
Fails if any single encryption fails or the lists have different lengths. -/
def encryptAll : List (Agent R) → String → (Nat → R) → List Int →
    Option (List (Ciphertext R))
  | [], _, _, [] => some []
  | a :: rest, identifier, rs, v :: vs =>
    match a.NewCiphertext identifier (rs a.index) v with
    | none => none
    | some c =>
      match encryptAll rest identifier rs vs with
      | none => none
      | some cs => some (c :: cs)
  | _, _, _, _ => none

/-- End-to-end scenario of the scheme: generate keys for `n` agents with bit
width `b`, let every agent encrypt its plaintext from `vs` for `identifier`,
build a token from exactly the rules `vs`, and run `Test` over the resulting
ciphertexts.  `none` when any stage fails. -/
def scenario (sp : SystemParameters R) (alphas gammas : Nat → R)
    (betas : Nat → Nat → R) (rs us : Nat → R) (n b : Nat)
    (identifier : String) (vs : List Int) : Option (Except TestError Bool) :=
  let kg := (NewSetupKey sp).GenerateKeys alphas gammas betas n b
  match encryptAll kg.2 identifier rs vs, kg.1.NewToken us vs with
  | some cts, Except.ok rt =>
    some ((NewAlarmSystem sp rt identifier).Test cts)
  | _, _ => none

/-! ### Basic lemmas about the pairing-product fold and the gathering loop -/

theorem foldl_pairSum_shift (l : List (R × R)) (c : R) :
    l.foldl (fun acc p => acc + p.1 * p.2) c =
      c + l.foldl (fun acc p => acc + p.1 * p.2) 0 := by
  induction l generalizing c with
  | nil => simp
  | cons p l ih =>
    simp only [List.foldl_cons]
    rw [ih (c + p.1 * p.2), ih (0 + p.1 * p.2)]
    ring

theorem prodPairSlice_cons (x y : R) (xs ys : List R) :
    prodPairSlice (x :: xs) (y :: ys) = x * y + prodPairSlice xs ys := by
  unfold prodPairSlice
  simp only [List.zip_cons_cons, List.foldl_cons]
  rw [foldl_pairSum_shift]
  ring

theorem prodPairSlice_nil_left (ys : List R) :
    prodPairSlice ([] : List R) ys = 0 := rfl

theorem prodPairSlice_map_eq_sum (f : Nat → R) (is : List Nat)
    (l : List R) :
    prodPairSlice (is.map f) l =
      ((is.zip l).map fun p => f p.1 * p.2).sum := by
  induction is generalizing l with
  | nil => simp [prodPairSlice_nil_left]
  | cons i rest ih =>
    cases l with
    | nil => simp [prodPairSlice]
    | cons y ys =>
      simp only [List.map_cons, List.zip_cons_cons, List.sum_cons]
      rw [prodPairSlice_cons, ih]

theorem gatherParts_eq_map (ct : List (Ciphertext R)) (is : List Nat)
    (h : ∀ i ∈ is, i < ct.length) :
    gatherParts ct is =
      some (is.map fun i => (ct.getD i ⟨0, 0, 0⟩).part1,
        is.map fun i => (ct.getD i ⟨0, 0, 0⟩).part2) := by
  induction is with
  | nil => rfl
  | cons v rest ih =>
    have hv : v < ct.length := h v (List.mem_cons_self v rest)
    have hsome : ct[v]? = some ct[v] := List.getElem?_eq_getElem hv
    have hrest := ih fun i hi => h i (List.mem_cons_of_mem v hi)
    simp only [gatherParts, hsome, hrest, List.map_cons,
      List.getD_eq_getElem?_getD, Option.getD_some]

theorem gatherParts_congr (ct1 ct2 : List (Ciphertext R)) (is : List Nat)
    (h : ∀ i ∈ is, ct1[i]? = ct2[i]?) :
    gatherParts ct1 is = gatherParts ct2 is := by
  induction is with
  | nil => rfl
  | cons v rest ih =>
    have hv := h v (List.mem_cons_self v rest)
    have hrest := ih fun i hi => h i (List.mem_cons_of_mem v hi)
    simp only [gatherParts, hv, hrest]

theorem gatherParts_eq_none (ct : List (Ciphertext R)) (is : List Nat)
    (i : Nat) (hi : i ∈ is) (hlen : ct.length ≤ i) :
    gatherParts ct is = none := by
  induction is with
  | nil => cases hi
  | cons v rest ih =>
    rcases List.mem_cons.mp hi with h | h
    · subst h
      simp [gatherParts, List.getElem?_eq_none hlen]
    · cases hv : ct[v]? with
      | none => simp [gatherParts, hv]
      | some c => simp [gatherParts, hv, ih h]

/-! ### The bit loop of the PRF: success evaluation and failure condition -/

theorem brAccGo_eval (beta : List R) :
    ∀ (fuel x i : Nat) (acc : R) (K : Nat), x ≤ fuel → x < 2 ^ K →
      i + K ≤ beta.length →
      brAccGo beta fuel acc x i =
        some (acc * Finset.prod (Finset.range K)
          fun j => if x.testBit j then beta.getD (i + j) 0 else 1) := by
  intro fuel
  induction fuel with
  | zero =>
    intro x i acc K hx h2 hK
    have hx0 : x = 0 := Nat.le_zero.mp hx
    subst hx0
    have hprod : (Finset.prod (Finset.range K)
        fun j => if Nat.testBit 0 j then beta.getD (i + j) 0 else 1) = 1 :=
      Finset.prod_eq_one fun j _ => by simp [Nat.zero_testBit]
    rw [hprod, mul_one]
    rfl
  | succ f ih =>
    intro x i acc K hx h2 hK
    cases x with
    | zero =>
      have hprod : (Finset.prod (Finset.range K)
          fun j => if Nat.testBit 0 j then beta.getD (i + j) 0 else 1) = 1 :=
        Finset.prod_eq_one fun j _ => by simp [Nat.zero_testBit]
      rw [hprod, mul_one]
      rfl
    | succ y =>
      cases K with
      | zero =>
        rw [pow_zero] at h2
        omega
      | succ K =>
        have hfuel : (y + 1) / 2 ≤ f := by omega
        have hlt : (y + 1) / 2 < 2 ^ K := by
          rw [Nat.div_lt_iff_lt_mul (by norm_num : 0 < 2)]
          calc y + 1 < 2 ^ (K + 1) := h2
          _ = 2 ^ K * 2 := by rw [pow_succ]
        have hKlen : (i + 1) + K ≤ beta.length := by omega
        have hsplit : (Finset.prod (Finset.range (K + 1))
            fun j => if Nat.testBit (y + 1) j then beta.getD (i + j) 0 else 1) =
            (Finset.prod (Finset.range K)
              fun j => if Nat.testBit ((y + 1) / 2) j then
                beta.getD ((i + 1) + j) 0 else 1) *
            (if Nat.testBit (y + 1) 0 then beta.getD i 0 else 1) := by
          rw [Finset.prod_range_succ']
          congr 1
          refine Finset.prod_congr rfl fun j _ => ?hj
          rw [Nat.testBit_succ]
          have hidx : i + (j + 1) = (i + 1) + j := by omega
          rw [hidx]
        by_cases hodd : (y + 1) % 2 = 1
        · have hi : i < beta.length := by omega
          have hbi : beta[i]? = some beta[i] := List.getElem?_eq_getElem hi
          have hbit0 : Nat.testBit (y + 1) 0 = true := by
            rw [Nat.testBit_zero]
            exact decide_eq_true hodd
          have hstep : brAccGo beta (f + 1) acc (y + 1) i =
              brAccGo beta f (acc * beta[i]) ((y + 1) / 2) (i + 1) := by
            rw [brAccGo, if_pos hodd, hbi]
          rw [hstep, ih ((y + 1) / 2) (i + 1) (acc * beta[i]) K hfuel hlt hKlen,
            hsplit, hbit0]
          have hgetD : beta.getD i 0 = beta[i] := by
            rw [List.getD_eq_getElem?_getD, hbi, Option.getD_some]
          rw [if_pos rfl, hgetD]
          congr 1
          ring
        · have hbit0 : Nat.testBit (y + 1) 0 = false := by
            rw [Nat.testBit_zero]
            simp only [decide_eq_false_iff_not]
            exact hodd
          have hstep : brAccGo beta (f + 1) acc (y + 1) i =
              brAccGo beta f acc ((y + 1) / 2) (i + 1) := by
            rw [brAccGo, if_neg hodd]
          rw [hstep, ih ((y + 1) / 2) (i + 1) acc K hfuel hlt hKlen, hsplit,
            hbit0]
          rw [if_neg (by simp), mul_one]

theorem brAccGo_none_iff (beta : List R) :
    ∀ (fuel x i : Nat) (acc : R), x ≤ fuel →
      (brAccGo beta fuel acc x i = none ↔ 2 ^ (beta.length - i) ≤ x) := by
  intro fuel
  induction fuel with
  | zero =>
    intro x i acc hx
    have hx0 : x = 0 := Nat.le_zero.mp hx
    subst hx0
    constructor
    · intro h
      cases h
    · intro h
      have := Nat.pos_pow_of_pos (beta.length - i) (by norm_num : 0 < 2)
      omega
  | succ f ih =>
    intro x i acc hx
    cases x with
    | zero =>
      constructor
      · intro h
        cases h
      · intro h
        have := Nat.pos_pow_of_pos (beta.length - i) (by norm_num : 0 < 2)
        omega
    | succ y =>
      have hfuel : (y + 1) / 2 ≤ f := by omega
      by_cases hodd : (y + 1) % 2 = 1
      · by_cases hi : i < beta.length
        · have hbi : beta[i]? = some beta[i] := List.getElem?_eq_getElem hi
          have hstep : brAccGo beta (f + 1) acc (y + 1) i =
              brAccGo beta f (acc * beta[i]) ((y + 1) / 2) (i + 1) := by
            rw [brAccGo, if_pos hodd, hbi]
          rw [hstep, ih ((y + 1) / 2) (i + 1) (acc * beta[i]) hfuel]
          have hm : beta.length - i = (beta.length - (i + 1)) + 1 := by omega
          rw [hm, pow_succ, ← Nat.le_div_iff_mul_le (by norm_num : 0 < 2)]
        · have hbi : beta[i]? = none :=
            List.getElem?_eq_none (by omega)
          have hstep : brAccGo beta (f + 1) acc (y + 1) i = none := by
            rw [brAccGo, if_pos hodd, hbi]
          rw [hstep]
          have hm : beta.length - i = 0 := by omega
          simp [hm]
      · by_cases hi : i < beta.length
        · have hstep : brAccGo beta (f + 1) acc (y + 1) i =
              brAccGo beta f acc ((y + 1) / 2) (i + 1) := by
            rw [brAccGo, if_neg hodd]
          rw [hstep, ih ((y + 1) / 2) (i + 1) acc hfuel]
          have hm : beta.length - i = (beta.length - (i + 1)) + 1 := by omega
          rw [hm, pow_succ, ← Nat.le_div_iff_mul_le (by norm_num : 0 < 2)]
        · have hstep : brAccGo beta (f + 1) acc (y + 1) i =
              brAccGo beta f acc ((y + 1) / 2) (i + 1) := by
            rw [brAccGo, if_neg hodd]
          rw [hstep, ih ((y + 1) / 2) (i + 1) acc hfuel]
          have hm1 : beta.length - i = 0 := by omega
          have hm2 : beta.length - (i + 1) = 0 := by omega
          rw [hm1, hm2, pow_zero]
          constructor
          · intro h
            omega
          · intro h
            omega

theorem brAcc_eval (beta : List R) (acc : R) (x i : Nat) (K : Nat)
    (h2 : x < 2 ^ K) (hK : i + K ≤ beta.length) :
    brAcc beta acc x i =
      some (acc * Finset.prod (Finset.range K)
        fun j => if x.testBit j then beta.getD (i + j) 0 else 1) :=
  brAccGo_eval beta x x i acc K (Nat.le_refl x) h2 hK

theorem brAcc_specScalar (beta : List R) (x : Nat)
    (h : x < 2 ^ beta.length) :
    brAcc beta 1 x 0 = some (specScalar beta x) := by
  rw [brAcc_eval beta 1 x 0 beta.length h (by omega), one_mul]
  unfold specScalar
  exact congrArg some (Finset.prod_congr rfl fun j _ => by rw [Nat.zero_add])

theorem brAcc_none_iff (beta : List R) (acc : R) (x : Nat) :
    brAcc beta acc x 0 = none ↔ 2 ^ beta.length ≤ x := by
  rw [brAcc, brAccGo_none_iff beta x x 0 acc (Nat.le_refl x), Nat.sub_zero]

/-! ### Evaluation of `F` and of `NewCiphertext` -/

theorem F_eval_g1 (sp : SystemParameters R) (base : R) (beta : List R)
    (aux : R) (input : Int) (hb : input.toNat < 2 ^ beta.length) :
    sp.F 1 base beta aux input =
      some (GroupTag.G1, base * (specScalar beta input.toNat * aux)) := by
  unfold SystemParameters.F
  rw [brAcc_specScalar beta input.toNat hb]

theorem F_eval_g2 (sp : SystemParameters R) (base : R) (beta : List R)
    (aux : R) (input : Int) (hb : input.toNat < 2 ^ beta.length) :
    sp.F 2 base beta aux input =
      some (GroupTag.G2, base * (specScalar beta input.toNat * aux)) := by
  unfold SystemParameters.F
  rw [brAcc_specScalar beta input.toNat hb]

theorem F_none_iff (sp : SystemParameters R) (group : Nat) (base : R)
    (beta : List R) (aux : R) (input : Int)
    (hg : group = 1 ∨ group = 2) :
    (sp.F group base beta aux input = none ↔
      2 ^ beta.length ≤ input.toNat) := by
  unfold SystemParameters.F
  cases hbr : brAcc beta 1 input.toNat 0 with
  | none =>
    simp only [true_iff]
    exact (brAcc_none_iff beta 1 input.toNat).mp hbr
  | some w =>
    have hnot : ¬2 ^ beta.length ≤ input.toNat := fun h => by
      rw [(brAcc_none_iff beta 1 input.toNat).mpr h] at hbr
      cases hbr
    rcases hg with hg | hg <;> subst hg <;> simp [hnot]

theorem newCiphertext_eval (a : Agent R) (identifier : String) (r : R)
    (v : Int) (hb : v.toNat < 2 ^ a.beta.length) :
    a.NewCiphertext identifier r v =
      some ⟨a.index, a.sp.g1 * r,
        a.g1alpha * (specScalar a.beta v.toNat * r) +
          a.sp.hash identifier * a.gamma⟩ := by
  unfold Agent.NewCiphertext
  rw [F_eval_g1 a.sp a.g1alpha a.beta r v hb]

theorem newCiphertext_none_iff (a : Agent R) (identifier : String) (r : R)
    (v : Int) :
    (a.NewCiphertext identifier r v = none ↔
      2 ^ a.beta.length ≤ v.toNat) := by
  unfold Agent.NewCiphertext
  rw [← F_none_iff a.sp 1 a.g1alpha a.beta r v (Or.inl rfl)]
  cases hF : a.sp.F 1 a.g1alpha a.beta r v <;> simp [hF]

theorem newCiphertext_eq_mkCt (a : Agent R) (identifier : String)
    (rs : Nat → R) (v : Int) (hb : v.toNat < 2 ^ a.beta.length) :
    a.NewCiphertext identifier (rs a.index) v =
      some (mkCt identifier rs a v) := by
  rw [newCiphertext_eval a identifier (rs a.index) v hb]
  unfold mkCt
  rw [brAcc_specScalar a.beta v.toNat hb, Option.getD_some]

theorem encryptAll_eval (identifier : String) (rs : Nat → R) :
    ∀ (agents : List (Agent R)) (vs : List Int),
      agents.length = vs.length →
      (∀ (k : Nat) (a : Agent R) (v : Int), agents[k]? = some a →
        vs[k]? = some v → v.toNat < 2 ^ a.beta.length) →
      encryptAll agents identifier rs vs =
        some (List.zipWith (mkCt identifier rs) agents vs) := by
  intro agents
  induction agents with
  | nil =>
    intro vs hlen _
    cases vs with
    | nil => rfl
    | cons v vs => cases hlen
  | cons a rest ih =>
    intro vs hlen hb
    cases vs with
    | nil => cases hlen
    | cons v vs =>
      have hb0 : v.toNat < 2 ^ a.beta.length :=
        hb 0 a v (by simp) (by simp)
      have hrest := ih vs (by simpa using hlen)
        fun k a' v' ha hv => hb (k + 1) a' v' (by simpa using ha)
          (by simpa using hv)
      simp only [encryptAll, newCiphertext_eq_mkCt a identifier rs v hb0,
        hrest, List.zipWith_cons_cons]

/-! ### The token-generation loop -/

theorem newTokenLoop_eval (rg : RuleGenerator R) (us : Nat → R) :
    ∀ (rules : List Int) (i0 : Nat) (acc : RuleToken R),
      (∀ (k : Nat) (v : Int), rules[k]? = some v → 0 ≤ v →
        ∃ ai, rg.agents[i0 + k]? = some ai ∧
          v.toNat < 2 ^ ai.beta.length) →
      newTokenLoop rg us rules i0 acc =
        Except.ok ⟨acc.indices ++ incIdx i0 rules,
          acc.g2u ++ tokG2u rg.sp us i0 rules,
          acc.f2u ++ tokF2u rg us i0 rules,
          acc.product + tokProd rg us i0 rules⟩ := by
  intro rules
  induction rules with
  | nil =>
    intro i0 acc _
    simp [newTokenLoop, incIdx, tokG2u, tokF2u, tokProd]
  | cons v rest ih =>
    intro i0 acc hok
    have hshift : ∀ (k : Nat) (v' : Int), rest[k]? = some v' → 0 ≤ v' →
        ∃ ai, rg.agents[(i0 + 1) + k]? = some ai ∧
          v'.toNat < 2 ^ ai.beta.length := by
      intro k v' hk hv'
      have hidx : (i0 + 1) + k = i0 + (k + 1) := by omega
      rw [hidx]
      exact hok (k + 1) v' (by simpa using hk) hv'
    by_cases hv : 0 ≤ v
    · obtain ⟨ai, hai, hb⟩ := hok 0 v (by simp) hv
      rw [Nat.add_zero] at hai
      have hF := F_eval_g2 rg.sp ai.g2alpha ai.beta (us i0) v hb
      have hbr := brAcc_specScalar ai.beta v.toNat hb
      simp only [newTokenLoop, if_pos hv, hai, hF, ih (i0 + 1) _ hshift,
        incIdx, tokG2u, tokF2u, tokProd, hbr, Option.getD_some,
        List.append_assoc, List.singleton_append, add_assoc]
    · simp only [newTokenLoop, if_neg hv, ih (i0 + 1) acc hshift, incIdx,
        tokG2u, tokF2u, tokProd, if_neg hv]

theorem newTokenLoop_ok_indices (rg : RuleGenerator R) (us : Nat → R) :
    ∀ (rules : List Int) (i0 : Nat) (acc rt : RuleToken R),
      newTokenLoop rg us rules i0 acc = Except.ok rt →
      rt.indices = acc.indices ++ incIdx i0 rules := by
  intro rules
  induction rules with
  | nil =>
    intro i0 acc rt h
    cases h
    simp [incIdx]
  | cons v rest ih =>
    intro i0 acc rt h
    by_cases hv : 0 ≤ v
    · rw [newTokenLoop, if_pos hv] at h
      cases hai : rg.agents[i0]? with
      | none =>
        simp only [hai] at h
        exact Except.noConfusion h
      | some ai =>
        simp only [hai] at h
        cases hF : rg.sp.F 2 ai.g2alpha ai.beta (us i0) v with
        | none =>
          simp only [hF] at h
          exact Except.noConfusion h
        | some f =>
          simp only [hF] at h
          have := ih (i0 + 1) _ rt h
          rw [this]
          simp [incIdx, if_pos hv, List.append_assoc]
    · rw [newTokenLoop, if_neg hv] at h
      rw [ih (i0 + 1) acc rt h]
      simp [incIdx, if_neg hv]

theorem newTokenLoop_ne_mismatch (rg : RuleGenerator R) (us : Nat → R) :
    ∀ (rules : List Int) (i0 : Nat) (acc : RuleToken R),
      newTokenLoop rg us rules i0 acc ≠
        Except.error TokenError.ruleCountMismatch := by
  intro rules
  induction rules with
  | nil =>
    intro i0 acc h
    cases h
  | cons v rest ih =>
    intro i0 acc h
    by_cases hv : 0 ≤ v
    · rw [newTokenLoop, if_pos hv] at h
      cases hai : rg.agents[i0]? with
      | none =>
        simp only [hai] at h
        exact TokenError.noConfusion (Except.error.inj h)
      | some ai =>
        simp only [hai] at h
        cases hF : rg.sp.F 2 ai.g2alpha ai.beta (us i0) v with
        | none =>
          simp only [hF] at h
          exact TokenError.noConfusion (Except.error.inj h)
        | some f =>
          simp only [hF] at h
          exact ih (i0 + 1) _ h
    · rw [newTokenLoop, if_neg hv] at h
      exact ih (i0 + 1) acc h

theorem newTokenLoop_error_at (rg : RuleGenerator R) (us : Nat → R) :
    ∀ (rules : List Int) (i0 : Nat) (acc : RuleToken R) (k : Nat) (v : Int),
      rules[k]? = some v → 0 ≤ v →
      (∀ ai, rg.agents[i0 + k]? = some ai →
        2 ^ ai.beta.length ≤ v.toNat) →
      newTokenLoop rg us rules i0 acc =
        Except.error TokenError.outOfRange := by
  intro rules
  induction rules with
  | nil =>
    intro i0 acc k v hk
    simp at hk
  | cons v0 rest ih =>
    intro i0 acc k v hk hv hfail
    cases k with
    | zero =>
      have hv0 : v0 = v := by simpa using hk
      subst hv0
      rw [Nat.add_zero] at hfail
      cases hai : rg.agents[i0]? with
      | none => simp only [newTokenLoop, if_pos hv, hai]
      | some ai =>
        have hF : rg.sp.F 2 ai.g2alpha ai.beta (us i0) v0 = none :=
          (F_none_iff rg.sp 2 ai.g2alpha ai.beta (us i0) v0
            (Or.inr rfl)).mpr (hfail ai hai)
        simp only [newTokenLoop, if_pos hv, hai, hF]
    | succ k =>
      have hk' : rest[k]? = some v := by simpa using hk
      have hfail' : ∀ ai, rg.agents[(i0 + 1) + k]? = some ai →
          2 ^ ai.beta.length ≤ v.toNat := by
        intro ai hai
        refine hfail ai ?ha
        have hidx : i0 + (k + 1) = (i0 + 1) + k := by omega
        rw [hidx]
        exact hai
      by_cases hv0 : 0 ≤ v0
      · cases hai : rg.agents[i0]? with
        | none => simp only [newTokenLoop, if_pos hv0, hai]
        | some ai =>
          cases hF : rg.sp.F 2 ai.g2alpha ai.beta (us i0) v0 with
          | none => simp only [newTokenLoop, if_pos hv0, hai, hF]
          | some f =>
            simp only [newTokenLoop, if_pos hv0, hai, hF]
            exact ih (i0 + 1) _ k v hk' hv hfail'
      · rw [newTokenLoop, if_neg hv0]
        exact ih (i0 + 1) acc k v hk' hv hfail'

theorem mem_incIdx :
    ∀ (rules : List Int) (i0 j : Nat),
      j ∈ incIdx i0 rules ↔
        ∃ (k : Nat) (v : Int), rules[k]? = some v ∧ 0 ≤ v ∧ j = i0 + k := by
  intro rules
  induction rules with
  | nil =>
    intro i0 j
    simp [incIdx]
  | cons v rest ih =>
    intro i0 j
    by_cases hv : 0 ≤ v
    · rw [incIdx, if_pos hv]
      constructor
      · intro h
        rcases List.mem_cons.mp h with h | h
        · exact ⟨0, v, by simp, hv, by omega⟩
        · obtain ⟨k, v', hk, hv', hj⟩ := (ih (i0 + 1) j).mp h
          exact ⟨k + 1, v', by simpa using hk, hv', by omega⟩
      · rintro ⟨k, v', hk, hv', hj⟩
        cases k with
        | zero =>
          have : v = v' := by simpa using hk
          subst hj
          simp
        | succ k =>
          refine List.mem_cons_of_mem i0 ?hmem
          refine (ih (i0 + 1) j).mpr ⟨k, v', by simpa using hk, hv', by omega⟩
    · rw [incIdx, if_neg hv]
      constructor
      · intro h
        obtain ⟨k, v', hk, hv', hj⟩ := (ih (i0 + 1) j).mp h
        exact ⟨k + 1, v', by simpa using hk, hv', by omega⟩
      · rintro ⟨k, v', hk, hv', hj⟩
        cases k with
        | zero =>
          have hvv : v = v' := by simpa using hk
          subst hvv
          exact absurd hv' hv
        | succ k =>
          refine (ih (i0 + 1) j).mpr ⟨k, v', by simpa using hk, hv', by omega⟩

/-! ### NewToken-level evaluation and generic list access helpers -/

theorem getElem?_map_range {A : Type} (f : Nat → A) (n i : Nat)
    (hi : i < n) : ((List.range n).map f)[i]? = some (f i) := by
  rw [List.getElem?_map, List.getElem?_range hi]
  rfl

theorem getElem?_zipWith_some {A B C : Type} (f : A → B → C)
    (l1 : List A) (l2 : List B) (i : Nat) (a : A) (b : B)
    (h1 : l1[i]? = some a) (h2 : l2[i]? = some b) :
    (List.zipWith f l1 l2)[i]? = some (f a b) := by
  rw [List.getElem?_zipWith, h1, h2]

theorem newToken_eval (rg : RuleGenerator R) (us : Nat → R)
    (rules : List Int) (hlen : rg.agents.length ≤ rules.length)
    (hok : ∀ (k : Nat) (v : Int), rules[k]? = some v → 0 ≤ v →
      ∃ ai, rg.agents[k]? = some ai ∧ v.toNat < 2 ^ ai.beta.length) :
    rg.NewToken us rules =
      Except.ok ⟨incIdx 0 rules, tokG2u rg.sp us 0 rules,
        tokF2u rg us 0 rules, tokProd rg us 0 rules⟩ := by
  unfold RuleGenerator.NewToken
  rw [if_neg (by omega)]
  have hok0 : ∀ (k : Nat) (v : Int), rules[k]? = some v → 0 ≤ v →
      ∃ ai, rg.agents[0 + k]? = some ai ∧ v.toNat < 2 ^ ai.beta.length := by
    intro k v hk hv
    rw [Nat.zero_add]
    exact hok k v hk hv
  rw [newTokenLoop_eval rg us rules 0 ⟨[], [], [], 0⟩ hok0]
  simp

/-! ### The algebraic heart of correctness: the two pairing products agree -/

theorem token_sums (sp : SystemParameters R) (alphas gammas : Nat → R)
    (betas : Nat → Nat → R) (rs us : Nat → R) (n b : Nat)
    (identifier : String) (vs : List Int) (rg : RuleGenerator R)
    (cts : List (Ciphertext R)) (hn : vs.length = n)
    (hrg : rg = ⟨(List.range n).map (kgInfo sp alphas gammas betas b), sp⟩)
    (hcts : cts = List.zipWith (mkCt identifier rs)
      ((List.range n).map (kgAgent sp alphas gammas betas b)) vs) :
    ∀ (vs' : List Int) (i0 : Nat),
      (∀ (k : Nat), vs'[k]? = vs[i0 + k]?) →
      i0 + vs'.length ≤ n →
      (∀ v ∈ vs', 0 ≤ v) →
      prodPairSlice
          ((incIdx i0 vs').map fun i => (cts.getD i ⟨0, 0, 0⟩).part1)
          (tokF2u rg us i0 vs') +
        sp.hash identifier * tokProd rg us i0 vs' =
      prodPairSlice
          ((incIdx i0 vs').map fun i => (cts.getD i ⟨0, 0, 0⟩).part2)
          (tokG2u sp us i0 vs') := by
  intro vs'
  induction vs' with
  | nil =>
    intro i0 _ _ _
    simp [incIdx, tokF2u, tokG2u, tokProd, mul_zero, add_zero]
  | cons v rest ih =>
    intro i0 hk hbound hpos
    have hv : 0 ≤ v := hpos v (List.mem_cons_self v rest)
    have hi0 : i0 < n := by
      have := hbound
      simp only [List.length_cons] at this
      omega
    have hvs : vs[i0]? = some v := by
      have h0 := hk 0
      simp only [List.getElem?_cons_zero, Nat.add_zero] at h0
      exact h0.symm
    have hagent : ((List.range n).map
        (kgAgent sp alphas gammas betas b))[i0]? =
        some (kgAgent sp alphas gammas betas b i0) :=
      getElem?_map_range _ n i0 hi0
    have hcg : cts[i0]? = some (mkCt identifier rs
        (kgAgent sp alphas gammas betas b i0) v) := by
      rw [hcts]
      exact getElem?_zipWith_some _ _ _ i0 _ v hagent hvs
    have hgetD : cts.getD i0 ⟨0, 0, 0⟩ = mkCt identifier rs
        (kgAgent sp alphas gammas betas b i0) v := by
      rw [List.getD_eq_getElem?_getD, hcg, Option.getD_some]
    have hai : rg.agents[i0]? = some (kgInfo sp alphas gammas betas b i0) := by
      rw [hrg]
      exact getElem?_map_range _ n i0 hi0
    have hk' : ∀ (k : Nat), rest[k]? = vs[(i0 + 1) + k]? := by
      intro k
      have := hk (k + 1)
      simp only [List.getElem?_cons_succ] at this
      rw [this]
      congr 1
      omega
    have hbound' : (i0 + 1) + rest.length ≤ n := by
      have := hbound
      simp only [List.length_cons] at this
      omega
    have hpos' : ∀ v' ∈ rest, 0 ≤ v' := fun v' hv' =>
      hpos v' (List.mem_cons_of_mem v hv')
    have hIH := ih (i0 + 1) hk' hbound' hpos'
    simp only [incIdx, tokF2u, tokG2u, tokProd, if_pos hv, hai,
      List.map_cons]
    rw [prodPairSlice_cons, prodPairSlice_cons, hgetD]
    rw [← hIH]
    simp only [mkCt, kgAgent, kgInfo]
    ring
theorem lt_length_of_getElem {A : Type} {l : List A} {k : Nat} {a : A}
    (h : l[k]? = some a) : k < l.length := by
  by_contra hk
  rw [List.getElem?_eq_none (by omega)] at h
  cases h

/-! ### Claim theorems -/

/-- C9: for every filename, loading system parameters from persisted storage
fails with the explicit not-implemented stub error and never returns system
parameters. -/
theorem load_from_file_stub (A : Type) (filename : String) :
    NewSystemParametersFromFile A filename =
      Except.error LoadError.notImplemented := rfl

/-- C6: `NewToken` returns the rule-count-mismatch error exactly when the
rules sequence is strictly shorter than the agent list; in that case no token
is produced (the result is an error value), and the rule generator, a pure
value, is untouched. -/
theorem newToken_mismatch_iff (rg : RuleGenerator R) (us : Nat → R)
    (rules : List Int) :
    rg.NewToken us rules = Except.error TokenError.ruleCountMismatch ↔
      rules.length < rg.agents.length := by
  unfold RuleGenerator.NewToken
  by_cases h : rules.length < rg.agents.length
  · simp [h]
  · rw [if_neg h]
    simp only [h, iff_false]
    exact newTokenLoop_ne_mismatch rg us rules 0 ⟨[], [], [], 0⟩

/-- C5: if some index in the token's included-index list is not a valid index
into the ciphertext collection, `Test` fails with the explicit, recoverable
index-out-of-range error (the unchecked Go crash is modelled by this error
value). -/
theorem test_index_out_of_range (a : AlarmSystem R)
    (ct : List (Ciphertext R)) (i : Nat) (hi : i ∈ a.rt.indices)
    (hrange : ct.length ≤ i) :
    a.Test ct = Except.error TestError.indexOutOfRange := by
  unfold AlarmSystem.Test
  rw [gatherParts_eq_none ct a.rt.indices i hi hrange]

/-- Witness for C5: a concrete alarm system whose token references index 3
while the supplied collection is empty. -/
theorem test_index_out_of_range_witness :
    (AlarmSystem.mk (⟨0, 0, fun _ => 0⟩ : SystemParameters ℤ)
        ⟨[3], [], [], 0⟩ 0).Test [] =
      Except.error TestError.indexOutOfRange :=
  test_index_out_of_range _ [] 3 (by decide) (by decide)

/-- C1 counterexample: a concrete alarm system and single ciphertext on which
the code's `Test` returns `true` while the spec's formula (`TestSpec`, with
`e(hID, product)` multiplied into the `(part2, g2u)` side) returns `false`:
the claim's description of which product receives the `e(hID, product)`
factor does not match the code. -/
theorem test_formula_counterexample :
    (NewAlarmSystem (⟨3, 5, fun _ => 1⟩ : SystemParameters ℤ)
        ⟨[0], [1], [1], 1⟩ "id").Test [⟨0, 1, 2⟩] = Except.ok true ∧
      TestSpec (NewAlarmSystem (⟨3, 5, fun _ => 1⟩ : SystemParameters ℤ)
        ⟨[0], [1], [1], 1⟩ "id") [⟨0, 1, 2⟩] = Except.ok false := by
  constructor
  · rfl
  · rfl

/-- C1 (amended): `Test` returns exactly the GT equality
`(∏ e(part1_i, f2u_i)) · e(hID, product) == ∏ e(part2_i, g2u_i)` — the
`e(hID, product)` factor multiplies the `(part1, f2u)` product, not the
`(part2, g2u)` product; on an invalid included index both fail with the
index-out-of-range error. -/
theorem test_eq_amended_spec (a : AlarmSystem R) (ct : List (Ciphertext R)) :
    a.Test ct = TestSpecAmended a ct := by
  by_cases h : ∀ i ∈ a.rt.indices, i < ct.length
  · have hg := gatherParts_eq_map ct a.rt.indices h
    unfold AlarmSystem.Test TestSpecAmended
    rw [if_pos h]
    simp only [hg]
    rw [prodPairSlice_map_eq_sum, prodPairSlice_map_eq_sum]
  · unfold AlarmSystem.Test TestSpecAmended
    rw [if_neg h]
    push_neg at h
    obtain ⟨i, hi, hrange⟩ := h
    rw [gatherParts_eq_none ct a.rt.indices i hi hrange]

/-- C7: for a target group in `{1, 2}`, a non-negative input all of whose set
bits lie below `beta.length`, `F` returns `base` raised to the scalar
`(∏ beta[i] over the set bits i of input) * aux`, the result lying in G1 when
the selector is 1 and in G2 when it is 2.  `F` is a pure function of its
arguments, so repeated evaluation yields the identical element. -/
theorem F_spec (sp : SystemParameters R) (group : Nat) (base : R)
    (beta : List R) (aux : R) (input : Int)
    (hg : group = 1 ∨ group = 2) (h0 : 0 ≤ input)
    (hb : input.toNat < 2 ^ beta.length) :
    sp.F group base beta aux input =
      some (if group = 1 then GroupTag.G1 else GroupTag.G2,
        base * (specScalar beta input.toNat * aux)) := by
  rcases hg with hg | hg
  · subst hg
    rw [F_eval_g1 sp base beta aux input hb]
    rfl
  · subst hg
    rw [F_eval_g2 sp base beta aux input hb]
    rfl

/-- Witness for C7: a concrete evaluation of `F` in group 2 with
`beta = [2, 3]`, `aux = 5`, `input = 3`, yielding
`base ^ (2 * 3 * 5) = 3 * 30 = 90` in the exponent model. -/
theorem F_spec_witness :
    (⟨1, 1, fun _ => 0⟩ : SystemParameters ℤ).F 2 3 [2, 3] 5 3 =
      some (GroupTag.G2, 90) := by
  rw [F_spec (⟨1, 1, fun _ => 0⟩ : SystemParameters ℤ) 2 3 [2, 3] 5 3
    (Or.inr rfl) (by decide) (by decide)]
  decide

/-- C8: encryption of an in-range non-negative plaintext returns the
ciphertext whose index is the agent's own index, whose `part1` is `g1^r` for
the fresh scalar `r`, and whose `part2` is `F(1, g1^alpha, beta, r, v)`
multiplied by `H(identifier)^gamma`, `H` being the deterministic hash of the
identifier into G1; the agent itself is a pure value and is unchanged. -/
theorem newCiphertext_spec (a : Agent R) (identifier : String) (r : R)
    (v : Int) (h0 : 0 ≤ v) (hb : v.toNat < 2 ^ a.beta.length) :
    a.NewCiphertext identifier r v =
      some ⟨a.index, a.sp.g1 * r,
        a.g1alpha * (specScalar a.beta v.toNat * r) +
          a.sp.hash identifier * a.gamma⟩ :=
  newCiphertext_eval a identifier r v hb

/-- Witness for C8: a concrete agent with `beta = [2]`, encrypting plaintext
1 with `r = 2` yields index 7, `part1 = 3 * 2 = 6`, and
`part2 = 4 * (2 * 2) + 1 * 9 = 25`. -/
theorem newCiphertext_spec_witness :
    (⟨7, 4, [2], 9, ⟨3, 5, fun _ => 1⟩⟩ : Agent ℤ).NewCiphertext "A" 2 1 =
      some ⟨7, 6, 25⟩ := by
  rw [newCiphertext_spec (⟨7, 4, [2], 9, ⟨3, 5, fun _ => 1⟩⟩ : Agent ℤ)
    "A" 2 1 (by decide) (by decide)]
  decide

/-- C10: `F` indexes `beta` at every set bit of its input without a bounds
check, so (for a valid group selector and non-negative input) it fails
exactly when the input reaches `2 ^ beta.length`; consequently encryption
fails exactly when the plaintext reaches `2 ^ beta.length`; keys generated
with bit width `b` give every agent a `beta` of length exactly `b`; and
`NewToken` on a rules sequence of admissible length containing a non-wildcard
value out of range for its agent fails with the out-of-range error instead of
returning a token. -/
theorem prf_out_of_range :
    (∀ (sp : SystemParameters R) (group : Nat) (base : R) (beta : List R)
      (aux : R) (x : Int), (group = 1 ∨ group = 2) → 0 ≤ x →
      (sp.F group base beta aux x = none ↔ 2 ^ beta.length ≤ x.toNat)) ∧
    (∀ (a : Agent R) (identifier : String) (r : R) (x : Int), 0 ≤ x →
      (a.NewCiphertext identifier r x = none ↔
        2 ^ a.beta.length ≤ x.toNat)) ∧
    (∀ (sk : SetupKey R) (alphas gammas : Nat → R) (betas : Nat → Nat → R)
      (n b i : Nat) (a : Agent R),
      ((sk.GenerateKeys alphas gammas betas n b).2)[i]? = some a →
      a.beta.length = b) ∧
    (∀ (rg : RuleGenerator R) (us : Nat → R) (rules : List Int) (k : Nat)
      (v : Int), rg.agents.length ≤ rules.length →
      rules[k]? = some v → 0 ≤ v →
      (∀ ai, rg.agents[k]? = some ai → 2 ^ ai.beta.length ≤ v.toNat) →
      rg.NewToken us rules = Except.error TokenError.outOfRange) := by
  refine ⟨?hF, ?hCt, ?hLen, ?hTok⟩
  · intro sp group base beta aux x hg _
    exact F_none_iff sp group base beta aux x hg
  · intro a identifier r x _
    exact newCiphertext_none_iff a identifier r x
  · intro sk alphas gammas betas n b i a ha
    unfold SetupKey.GenerateKeys at ha
    simp only at ha
    have hi : i < n := by
      have := lt_length_of_getElem ha
      simpa using this
    rw [getElem?_map_range (kgAgent sk.sp alphas gammas betas b) n i hi]
      at ha
    have haa : kgAgent sk.sp alphas gammas betas b i = a :=
      Option.some.inj ha
    rw [← haa]
    simp [kgAgent]
  · intro rg us rules k v hlen hk hv hfail
    unfold RuleGenerator.NewToken
    rw [if_neg (by omega)]
    refine newTokenLoop_error_at rg us rules 0 ⟨[], [], [], 0⟩ k v hk hv ?hf
    intro ai hai
    refine hfail ai ?ha
    rw [← hai]
    congr 1
    omega

/-- Witness for C10: with bit width 0 (`beta = []`), encrypting plaintext 1
fails, and a token over the single rule value 1 fails with the out-of-range
error. -/
theorem prf_out_of_range_witness :
    ((⟨0, 0, [], 0, ⟨1, 1, fun _ => 0⟩⟩ : Agent ℤ).NewCiphertext "A" 1 1 =
      none) ∧
    (⟨[⟨1, [], 1⟩], ⟨1, 1, fun _ => 0⟩⟩ : RuleGenerator ℤ).NewToken
      (fun _ => 1) [1] = Except.error TokenError.outOfRange := by
  constructor
  · exact ((prf_out_of_range (R := ℤ)).2.1
      (⟨0, 0, [], 0, ⟨1, 1, fun _ => 0⟩⟩ : Agent ℤ) "A" 1 1
      (by decide)).mpr (by decide)
  · refine (prf_out_of_range (R := ℤ)).2.2.2
      (⟨[⟨1, [], 1⟩], ⟨1, 1, fun _ => 0⟩⟩ : RuleGenerator ℤ)
      (fun _ => 1) [1] 0 1 (by decide) (by decide) (by decide) ?hf
    intro ai hai
    have haa : (⟨1, [], 1⟩ : AgentInfo ℤ) = ai := by simpa using hai
    rw [← haa]
    decide

/-- C4 counterexample: a rule generator knowing exactly one agent, given the
rules sequence `[0, 0]` of length 2 ≥ 1, does not return a token: the loop
runs over all rule positions and accesses `agents[1]`, which is out of range,
so the call fails instead of succeeding as the claim asserts. -/
theorem newToken_long_rules_counterexample :
    (⟨[⟨1, [], 1⟩], ⟨3, 5, fun _ => 1⟩⟩ : RuleGenerator ℤ).NewToken
      (fun _ => 1) [0, 0] = Except.error TokenError.outOfRange := by
  decide

/-- C4 (amended): if the rules sequence is at least as long as the agent list
and every non-wildcard position addresses an existing agent (is below the
agent count) with a value whose set bits lie below that agent's `beta`
length, then `NewToken` succeeds, and the returned token's included-index
list contains exactly the positions carrying a non-negative rule value, each
strictly below the agent count. -/
theorem newToken_ok_characterization (rg : RuleGenerator R) (us : Nat → R)
    (rules : List Int) (hlen : rg.agents.length ≤ rules.length)
    (hval : ∀ k ∈ List.range rules.length, 0 ≤ rules.getD k 0 →
      k < rg.agents.length ∧ (rules.getD k 0).toNat <
        2 ^ (rg.agents.getD k ⟨0, [], 0⟩).beta.length) :
    rg.NewToken us rules =
      Except.ok ⟨incIdx 0 rules, tokG2u rg.sp us 0 rules,
        tokF2u rg us 0 rules, tokProd rg us 0 rules⟩ ∧
    (∀ j : Nat, j ∈ incIdx 0 rules ↔
      ∃ v, rules[j]? = some v ∧ 0 ≤ v) ∧
    (∀ j ∈ incIdx 0 rules, j < rg.agents.length) := by
  have hmem : ∀ j : Nat, j ∈ incIdx 0 rules ↔
      ∃ v, rules[j]? = some v ∧ 0 ≤ v := by
    intro j
    rw [mem_incIdx rules 0 j]
    constructor
    · rintro ⟨k, v, hk, hv, hj⟩
      have hkj : k = j := by omega
      subst hkj
      exact ⟨v, hk, hv⟩
    · rintro ⟨v, hk, hv⟩
      exact ⟨j, v, hk, hv, by omega⟩
  have huse : ∀ (k : Nat) (v : Int), rules[k]? = some v → 0 ≤ v →
      k < rg.agents.length ∧ v.toNat <
        2 ^ (rg.agents.getD k ⟨0, [], 0⟩).beta.length := by
    intro k v hk hv
    have hklen : k < rules.length := lt_length_of_getElem hk
    have hgd : rules.getD k 0 = v := by
      rw [List.getD_eq_getElem?_getD, hk, Option.getD_some]
    have := hval k (List.mem_range.mpr hklen) (by rw [hgd]; exact hv)
    rw [hgd] at this
    exact this
  refine ⟨?hok, hmem, ?hbound⟩
  · refine newToken_eval rg us rules hlen ?hex
    intro k v hk hv
    obtain ⟨hkn, hb⟩ := huse k v hk hv
    refine ⟨rg.agents.getD k ⟨0, [], 0⟩, ?hsome, hb⟩
    rw [List.getD_eq_getElem?_getD, List.getElem?_eq_getElem hkn,
      Option.getD_some]
  · intro j hj
    obtain ⟨v, hk, hv⟩ := (hmem j).mp hj
    exact (huse j v hk hv).1

/-- Witness for C4 (amended): one agent with `beta = [2]`, rules `[1, -1]`
(length 2 ≥ 1, the extra position a wildcard): the token is produced, its
included-index list contains position 0 and not the wildcard position 1. -/
theorem newToken_ok_characterization_witness :
    (⟨[⟨1, [2], 1⟩], ⟨3, 5, fun _ => 1⟩⟩ : RuleGenerator ℤ).NewToken
        (fun _ => 1) [1, -1] =
      Except.ok ⟨incIdx 0 [1, -1],
        tokG2u (⟨3, 5, fun _ => 1⟩ : SystemParameters ℤ) (fun _ => 1) 0
          [1, -1],
        tokF2u (⟨[⟨1, [2], 1⟩], ⟨3, 5, fun _ => 1⟩⟩ : RuleGenerator ℤ)
          (fun _ => 1) 0 [1, -1],
        tokProd (⟨[⟨1, [2], 1⟩], ⟨3, 5, fun _ => 1⟩⟩ : RuleGenerator ℤ)
          (fun _ => 1) 0 [1, -1]⟩ ∧
    (0 ∈ incIdx 0 [(1 : Int), -1]) ∧ (1 ∉ incIdx 0 [(1 : Int), -1]) := by
  have h := newToken_ok_characterization
    (⟨[⟨1, [2], 1⟩], ⟨3, 5, fun _ => 1⟩⟩ : RuleGenerator ℤ)
    (fun _ => 1) [1, -1] (by decide) (by decide)
  exact ⟨h.1, by decide, by decide⟩

/-- C3: for a token built by `NewToken` from a rules sequence whose position
`j` carries a negative (wildcard) value, `j` is not in the token's
included-index list, and `Test` returns the same result on any two
ciphertext collections that agree at every included index — in particular
the collections may differ arbitrarily at position `j`. -/
theorem wildcard_neutrality (rg : RuleGenerator R) (us : Nat → R)
    (rules : List Int) (j : Nat) (v : Int) (rt : RuleToken R)
    (sp : SystemParameters R) (hID : R) (ct1 ct2 : List (Ciphertext R))
    (hj : rules[j]? = some v) (hv : v < 0)
    (hok : rg.NewToken us rules = Except.ok rt)
    (hagree : ∀ i ∈ rt.indices, ct1[i]? = ct2[i]?) :
    j ∉ rt.indices ∧
      (AlarmSystem.mk sp rt hID).Test ct1 =
        (AlarmSystem.mk sp rt hID).Test ct2 := by
  have hind : rt.indices = incIdx 0 rules := by
    unfold RuleGenerator.NewToken at hok
    by_cases h : rules.length < rg.agents.length
    · rw [if_pos h] at hok
      exact Except.noConfusion hok
    · rw [if_neg h] at hok
      have := newTokenLoop_ok_indices rg us rules 0 ⟨[], [], [], 0⟩ rt hok
      simpa using this
  constructor
  · rw [hind]
    intro hmem
    obtain ⟨k, v', hk, hv', hkj⟩ := (mem_incIdx rules 0 j).mp hmem
    have hkj' : k = j := by omega
    subst hkj'
    rw [hj] at hk
    have hvv : v = v' := Option.some.inj hk
    subst hvv
    omega
  · unfold AlarmSystem.Test
    rw [gatherParts_congr ct1 ct2 rt.indices hagree]

/-- Witness for C3: two agents, rules `[0, -1]` (position 1 a wildcard); the
two collections agree at the single included index 0 and differ at index 1;
index 1 is excluded and `Test` answers identically on both. -/
theorem wildcard_neutrality_witness :
    (1 ∉ (⟨[0], [1], [1], 1⟩ : RuleToken ℤ).indices) ∧
      (AlarmSystem.mk (⟨1, 1, fun _ => 1⟩ : SystemParameters ℤ)
          ⟨[0], [1], [1], 1⟩ 1).Test [⟨0, 1, 2⟩, ⟨1, 3, 4⟩] =
        (AlarmSystem.mk (⟨1, 1, fun _ => 1⟩ : SystemParameters ℤ)
          ⟨[0], [1], [1], 1⟩ 1).Test [⟨0, 1, 2⟩, ⟨1, 30, 40⟩] :=
  wildcard_neutrality
    (⟨[⟨1, [], 1⟩, ⟨1, [], 1⟩], ⟨1, 1, fun _ => 1⟩⟩ : RuleGenerator ℤ)
    (fun _ => 1) [0, -1] 1 (-1) ⟨[0], [1], [1], 1⟩
    (⟨1, 1, fun _ => 1⟩ : SystemParameters ℤ) 1
    [⟨0, 1, 2⟩, ⟨1, 3, 4⟩] [⟨0, 1, 2⟩, ⟨1, 30, 40⟩]
    (by decide) (by decide) (by decide) (by decide)

/-- C2: end-to-end correctness.  For any key generation with `n` agents and
bit width `b`, any identifier, and any plaintexts `v_0 .. v_(n-1)` (each
non-negative with all set bits below `b`), if every agent encrypts its
plaintext for the identifier and a token is built from exactly the rules
`[v_0, .., v_(n-1)]` (no wildcards), then `Test` over the resulting
ciphertexts succeeds and returns `true`. -/
theorem scheme_correctness (sp : SystemParameters R)
    (alphas gammas : Nat → R) (betas : Nat → Nat → R) (rs us : Nat → R)
    (n b : Nat) (identifier : String) (vs : List Int)
    (hlen : vs.length = n)
    (hvals : ∀ v ∈ vs, 0 ≤ v ∧ v.toNat < 2 ^ b) :
    scenario sp alphas gammas betas rs us n b identifier vs =
      some (Except.ok true) := by
  have hE : encryptAll ((List.range n).map (kgAgent sp alphas gammas betas b))
      identifier rs vs =
      some (List.zipWith (mkCt identifier rs)
        ((List.range n).map (kgAgent sp alphas gammas betas b)) vs) := by
    refine encryptAll_eval identifier rs _ vs (by simp [hlen]) ?hB
    intro k a v ha hv
    have hk : k < n := by
      have := lt_length_of_getElem ha
      simpa using this
    rw [getElem?_map_range (kgAgent sp alphas gammas betas b) n k hk] at ha
    have haa : kgAgent sp alphas gammas betas b k = a := Option.some.inj ha
    rw [← haa]
    have hmem : v ∈ vs := List.getElem?_mem hv
    have hv2 := (hvals v hmem).2
    simpa [kgAgent] using hv2
  have hT : (⟨(List.range n).map (kgInfo sp alphas gammas betas b), sp⟩ :
      RuleGenerator R).NewToken us vs =
      Except.ok ⟨incIdx 0 vs, tokG2u sp us 0 vs,
        tokF2u ⟨(List.range n).map (kgInfo sp alphas gammas betas b), sp⟩
          us 0 vs,
        tokProd ⟨(List.range n).map (kgInfo sp alphas gammas betas b), sp⟩
          us 0 vs⟩ := by
    have h0 := newToken_eval
      (⟨(List.range n).map (kgInfo sp alphas gammas betas b), sp⟩ :
        RuleGenerator R) us vs (by simp [hlen]) ?hex
    · simpa using h0
    · intro k v hk hv
      have hkn : k < n := by
        rw [← hlen]
        exact lt_length_of_getElem hk
      refine ⟨kgInfo sp alphas gammas betas b k, ?hsome, ?hb⟩
      · simpa using getElem?_map_range (kgInfo sp alphas gammas betas b)
          n k hkn
      · have hmem : v ∈ vs := List.getElem?_mem hk
        have hv2 := (hvals v hmem).2
        simpa [kgInfo] using hv2
  have hlz : (List.zipWith (mkCt identifier rs)
      ((List.range n).map (kgAgent sp alphas gammas betas b)) vs).length =
      n := by
    simp [hlen]
  have hvalid : ∀ i ∈ incIdx 0 vs, i < (List.zipWith (mkCt identifier rs)
      ((List.range n).map (kgAgent sp alphas gammas betas b)) vs).length := by
    intro i hi
    obtain ⟨k, v, hk, hv, hik⟩ := (mem_incIdx vs 0 i).mp hi
    have hkn : k < vs.length := lt_length_of_getElem hk
    rw [hlz]
    omega
  have hg := gatherParts_eq_map _ (incIdx 0 vs) hvalid
  have hsums := token_sums sp alphas gammas betas rs us n b identifier vs
    ⟨(List.range n).map (kgInfo sp alphas gammas betas b), sp⟩
    (List.zipWith (mkCt identifier rs)
      ((List.range n).map (kgAgent sp alphas gammas betas b)) vs)
    hlen rfl rfl vs 0 (fun k => by rw [Nat.zero_add]) (by omega)
    (fun v hv => (hvals v hv).1)
  unfold scenario
  simp only [SetupKey.GenerateKeys, NewSetupKey]
  simp only [hE, hT]
  unfold NewAlarmSystem AlarmSystem.Test
  simp only [hg]
  rw [decide_eq_true hsums]

/-- Witness for C2: the spec's concrete scenario — three agents, bit width
4, plaintexts 5, 3, 7 encrypted for identifier `"X"`, token built from rules
`[5, 3, 7]` — with explicit randomness draws; `Test` returns `true`. -/
theorem scheme_correctness_witness :
    scenario (⟨3, 5, fun s => (s.length : ℤ) + 11⟩ : SystemParameters ℤ)
      (fun i => 2 + (i : ℤ)) (fun i => 7 + 2 * (i : ℤ))
      (fun i j => 1 + (i : ℤ) + 3 * (j : ℤ)) (fun i => 13 + (i : ℤ))
      (fun i => 4 + 5 * (i : ℤ)) 3 4 "X" [5, 3, 7] =
      some (Except.ok true) :=
  scheme_correctness (⟨3, 5, fun s => (s.length : ℤ) + 11⟩ :
      SystemParameters ℤ)
    (fun i => 2 + (i : ℤ)) (fun i => 7 + 2 * (i : ℤ))
    (fun i j => 1 + (i : ℤ) + 3 * (j : ℤ)) (fun i => 13 + (i : ℤ))
    (fun i => 4 + 5 * (i : ℤ)) 3 4 "X" [5, 3, 7] (by decide) (by decide)

end Crypmonsys
